import Mathlib

/-!
Verification of the signal-conditioning and feature-extraction pipeline
(modules/signal_preprocessor.py, modules/feature_extractor.py) against its
design document.  The Python code is embedded shallowly: pandas Series become
lists over ℚ (with `Option` for missing values / NaN), raised exceptions
become `Except` errors, and the mutable scikit-learn scaler becomes explicit
state passing.
-/

set_option linter.unusedVariables false

/-- Error taxonomy of the design document (§7). -/
inductive PreprocessError where
  | invalidParameter
  | insufficientData
  | missingColumn
  | degenerateWindow
  | emptyInput
  deriving DecidableEq, Repr

/-- Observable processing events of `preprocess` (side effects such as the
duplicate-removal pass, which prints and rewrites the frame). -/
inductive PreprocessEvent where
  | removedDuplicates
  deriving DecidableEq, Repr

/-- Embedding of `segment_into_windows(data, L)`: the list comprehension
`[data[i:i+L] for i in range(0, len(data), L)]`, written as structural
recursion peeling `L` elements at a time. -/
def segment_into_windows (L : ℕ) (xs : List ℚ) : List (List ℚ) :=
  if h : L = 0 then []
  else if hx : xs = [] then []
  else xs.take L :: segment_into_windows L (xs.drop L)
termination_by xs.length
decreasing_by
  simp only [List.length_drop]
  have hL : 0 < L := Nat.pos_of_ne_zero h
  have hxl : 0 < xs.length := List.length_pos.mpr hx
  omega

theorem segment_join (L : ℕ) (hL : L ≠ 0) (xs : List ℚ) :
    (segment_into_windows L xs).flatten = xs := by
  induction xs using segment_into_windows.induct L with
  | case1 x h => exact absurd h hL
  | case2 h => simp [segment_into_windows, hL]
  | case3 x h1 hx ih =>
      rw [segment_into_windows, dif_neg h1, dif_neg hx]
      simp [List.flatten, ih, List.take_append_drop]

lemma ceil_div_step (n L : ℕ) (hL : 0 < L) (hn : 0 < n) :
    (n - L + L - 1) / L + 1 = (n + L - 1) / L := by
  have e2 : n + L - 1 = (n - 1) + L := by omega
  rw [e2, Nat.add_div_right _ hL]
  rcases le_or_lt n L with hle | hgt
  · have e1 : n - L + L - 1 = L - 1 := by omega
    rw [e1, Nat.div_eq_of_lt (by omega), Nat.div_eq_of_lt (by omega)]
  · have e1 : n - L + L - 1 = n - 1 := by omega
    rw [e1]

theorem segment_count (L : ℕ) (hL : L ≠ 0) (xs : List ℚ) :
    (segment_into_windows L xs).length = (xs.length + L - 1) / L := by
  induction xs using segment_into_windows.induct L with
  | case1 x h => exact absurd h hL
  | case2 h =>
      have hsegnil : segment_into_windows L [] = [] := by
        rw [segment_into_windows]
        simp
      rw [hsegnil]
      simp only [List.length_nil]
      exact (Nat.div_eq_of_lt (by omega)).symm
  | case3 x h1 hx ih =>
      rw [segment_into_windows, dif_neg h1, dif_neg hx]
      simp only [List.length_cons, ih, List.length_drop]
      exact ceil_div_step x.length L (Nat.pos_of_ne_zero h1) (List.length_pos.mpr hx)

theorem segment_get (L : ℕ) (hL : L ≠ 0) (xs : List ℚ) (i : ℕ)
    (hi : i < (segment_into_windows L xs).length) :
    (segment_into_windows L xs).get? i = some ((xs.drop (i * L)).take L) := by
  induction xs using segment_into_windows.induct L generalizing i with
  | case1 x h => exact absurd h hL
  | case2 h =>
      have hsegnil : segment_into_windows L [] = [] := by
        rw [segment_into_windows]
        simp
      rw [hsegnil] at hi
      simp at hi
  | case3 x h1 hx ih =>
      rw [segment_into_windows, dif_neg h1, dif_neg hx] at hi ⊢
      cases i with
      | zero => simp
      | succ j =>
          simp only [List.length_cons] at hi
          have := ih j (by omega)
          simp only [List.get?_cons_succ, this, List.drop_drop]
          have harith : L + j * L = (j + 1) * L := by ring
          rw [harith]

/-- C1: for every series and every window length L > 0, `segment_into_windows`
produces exactly ceil(n/L) windows whose concatenation is the source series
(so their lengths sum to n), and the i-th window is the slice of the source
starting at position i*L — windows are in increasing start-position order,
contiguous and non-overlapping. -/
theorem c1_segmentation (L : ℕ) (xs : List ℚ) (hL : 0 < L) :
    (segment_into_windows L xs).flatten = xs ∧
    (segment_into_windows L xs).length = (xs.length + L - 1) / L ∧
    ∀ i < (segment_into_windows L xs).length,
      (segment_into_windows L xs).get? i = some ((xs.drop (i * L)).take L) := by
  refine ⟨segment_join L (by omega) xs, segment_count L (by omega) xs, ?_⟩
  intro i hi
  exact segment_get L (by omega) xs i hi

theorem c1_segmentation_witness :
    0 < 2 ∧
    ((segment_into_windows 2 [(1 : ℚ), 2, 3]).flatten = [(1 : ℚ), 2, 3] ∧
     (segment_into_windows 2 [(1 : ℚ), 2, 3]).length = (([(1 : ℚ), 2, 3]).length + 2 - 1) / 2 ∧
     ∀ i < (segment_into_windows 2 [(1 : ℚ), 2, 3]).length,
       (segment_into_windows 2 [(1 : ℚ), 2, 3]).get? i =
         some ((([(1 : ℚ), 2, 3]).drop (i * 2)).take 2)) :=
  ⟨by decide, c1_segmentation 2 [(1 : ℚ), 2, 3] (by decide)⟩

/-- Centered rolling mean: the embedding of
`Series.rolling(window=w, center=True, min_periods=mp).mean()`.
Position `i` aggregates the in-bounds portion of the centered index range
`[i - w/2, i + (w-1)/2]`; it yields the mean of the present (non-missing)
values there when at least `mp` exist, and a missing value otherwise. -/
def rolling_center_mean (w mp : ℕ) (xs : List (Option ℚ)) : List (Option ℚ) :=
  (List.range xs.length).map (fun i =>
    let lo := i - w / 2
    let hi := min (i + (w - 1) / 2) (xs.length - 1)
    let vals := ((xs.drop lo).take (hi + 1 - lo)).filterMap id
    if mp ≤ vals.length then some (vals.sum / (vals.length : ℚ)) else none)

/-- Embedding of `SignalPreprocessor.reduce_noise`:
`data.rolling(window=self.window_size, center=True).mean()` — the default
`min_periods` equals the window size. -/
def reduce_noise (w : ℕ) (xs : List ℚ) : List (Option ℚ) :=
  rolling_center_mean w w (xs.map some)

/-- Embedding of `SignalPreprocessor.estimate_trend` body:
`data.rolling(window=window_size, center=True, min_periods=1).mean()`. -/
def estimate_trend (w : ℕ) (xs : List ℚ) : List (Option ℚ) :=
  rolling_center_mean w 1 (xs.map some)

/-- The default trend window of `estimate_trend`: `int(len(data) / 10)`. -/
def default_trend_window (n : ℕ) : ℕ := n / 10

/-- Embedding of `estimate_trend` called without an explicit window size. -/
def estimate_trend_default (xs : List ℚ) : List (Option ℚ) :=
  estimate_trend (default_trend_window xs.length) xs

lemma filterMap_id_map_some (l : List ℚ) : (l.map some).filterMap id = l := by
  induction l with
  | nil => rfl
  | cons a t ih => simp [ih]

lemma rolling_center_mean_length (w mp : ℕ) (xs : List (Option ℚ)) :
    (rolling_center_mean w mp xs).length = xs.length := by
  simp [rolling_center_mean]

lemma rolling_center_mean_get (w mp : ℕ) (xs : List (Option ℚ)) (i : ℕ)
    (hi : i < xs.length) :
    (rolling_center_mean w mp xs).get? i =
      some (if mp ≤ (((xs.drop (i - w / 2)).take
                (min (i + (w - 1) / 2) (xs.length - 1) + 1 - (i - w / 2))).filterMap id).length
            then some ((((xs.drop (i - w / 2)).take
                (min (i + (w - 1) / 2) (xs.length - 1) + 1 - (i - w / 2))).filterMap id).sum /
              (((((xs.drop (i - w / 2)).take
                (min (i + (w - 1) / 2) (xs.length - 1) + 1 - (i - w / 2))).filterMap id).length : ℕ) : ℚ))
            else none) := by
  unfold rolling_center_mean
  rw [List.get?_map, List.get?_range hi]
  rfl

lemma reduce_noise_get (w : ℕ) (ys : List ℚ) (hw : w % 2 = 1) (hwn : w ≤ ys.length)
    (i : ℕ) (hi : i < ys.length) :
    (reduce_noise w ys).get? i =
      some (if w / 2 ≤ i ∧ i + w / 2 + 1 ≤ ys.length
            then some ((((ys.drop (i - w / 2)).take w).sum) / (w : ℚ))
            else none) := by
  have hms : (ys.map some).length = ys.length := by simp
  have h := rolling_center_mean_get w w (ys.map some) i (by rw [hms]; exact hi)
  rw [reduce_noise, h]
  have hfm : ∀ lo c : ℕ, (((ys.map some).drop lo).take c).filterMap id = (ys.drop lo).take c := by
    intro lo c
    rw [← List.map_drop, ← List.map_take, filterMap_id_map_some]
  rw [hms, hfm]
  have hk2 : (w - 1) / 2 = w / 2 := by omega
  rw [hk2]
  have hw2 : w = 2 * (w / 2) + 1 := by omega
  by_cases hc : w / 2 ≤ i ∧ i + w / 2 + 1 ≤ ys.length
  · rw [if_pos hc]
    have he : min (i + w / 2) (ys.length - 1) + 1 - (i - w / 2) = w := by omega
    rw [he]
    have hl : ((ys.drop (i - w / 2)).take w).length = w := by
      rw [List.length_take, List.length_drop]
      omega
    rw [if_pos hl.ge, hl]
  · rw [if_neg hc, if_neg]
    rw [List.length_take, List.length_drop]
    omega

lemma countP_range_boundary (n k : ℕ) (h2k : 2 * k < n) :
    (List.range n).countP (fun i => decide (i < k ∨ n ≤ i + k)) = 2 * k := by
  have hsplit1 : List.range' 0 (n - k) ++ List.range' (n - k) k = List.range' 0 n := by
    have := List.range'_append 0 (n - k) k 1
    simp only [one_mul, Nat.zero_add] at this
    rw [this]
    congr 1
    omega
  have hsplit2 : List.range' 0 k ++ List.range' k (n - k - k) = List.range' 0 (n - k) := by
    have := List.range'_append 0 k (n - k - k) 1
    simp only [one_mul, Nat.zero_add] at this
    rw [this]
    congr 1
    omega
  rw [List.range_eq_range', ← hsplit1, ← hsplit2, List.countP_append, List.countP_append]
  have c1 : (List.range' 0 k).countP (fun i => decide (i < k ∨ n ≤ i + k)) = k := by
    have hall : ∀ a ∈ List.range' 0 k, (fun i => decide (i < k ∨ n ≤ i + k)) a = true := by
      intro a ha
      rw [List.mem_range'_1] at ha
      simp only [decide_eq_true_eq]
      omega
    rw [List.countP_eq_length.mpr hall, List.length_range']
  have c2 : (List.range' k (n - k - k)).countP (fun i => decide (i < k ∨ n ≤ i + k)) = 0 := by
    rw [List.countP_eq_zero]
    intro a ha
    rw [List.mem_range'_1] at ha
    simp only [decide_eq_true_eq]
    omega
  have c3 : (List.range' (n - k) k).countP (fun i => decide (i < k ∨ n ≤ i + k)) = k := by
    have hall : ∀ a ∈ List.range' (n - k) k, (fun i => decide (i < k ∨ n ≤ i + k)) a = true := by
      intro a ha
      rw [List.mem_range'_1] at ha
      simp only [decide_eq_true_eq]
      omega
    rw [List.countP_eq_length.mpr hall, List.length_range']
  rw [c1, c2, c3]
  omega

lemma reduce_noise_eq_map (w : ℕ) (ys : List ℚ) (hw : w % 2 = 1) (hwn : w ≤ ys.length) :
    reduce_noise w ys = (List.range ys.length).map
      (fun i => if w / 2 ≤ i ∧ i + w / 2 + 1 ≤ ys.length
                then some ((((ys.drop (i - w / 2)).take w).sum) / (w : ℚ)) else none) := by
  apply List.ext_get?
  intro i
  by_cases hi : i < ys.length
  · rw [reduce_noise_get w ys hw hwn i hi, List.get?_map, List.get?_range hi]
    simp
  · rw [List.get?_eq_none.mpr, List.get?_eq_none.mpr]
    · simp only [List.length_map, List.length_range]
      omega
    · rw [reduce_noise, rolling_center_mean_length, List.length_map]
      omega

/-- C5: for every window of length n ≥ w with w odd, `reduce_noise` returns a
series of length n; every interior position holds the arithmetic mean of the
w samples centered on it; the w/2 positions at each boundary are missing, and
exactly w - 1 positions in total are missing. -/
theorem c5_reduce_noise (w : ℕ) (ys : List ℚ) (hw : w % 2 = 1) (hwn : w ≤ ys.length) :
    (reduce_noise w ys).length = ys.length ∧
    (∀ i, w / 2 ≤ i → i + w / 2 + 1 ≤ ys.length →
      (reduce_noise w ys).get? i =
        some (some ((((ys.drop (i - w / 2)).take w).sum) / (w : ℚ)))) ∧
    (∀ i, i < w / 2 → (reduce_noise w ys).get? i = some none) ∧
    (∀ i, i < ys.length → ys.length ≤ i + w / 2 → (reduce_noise w ys).get? i = some none) ∧
    (reduce_noise w ys).countP (fun o => o.isNone) = w - 1 := by
  have hmap := reduce_noise_eq_map w ys hw hwn
  refine ⟨?_, ?_, ?_, ?_, ?_⟩
  · rw [reduce_noise, rolling_center_mean_length, List.length_map]
  · intro i h1 h2
    have hi : i < ys.length := by omega
    rw [hmap, List.get?_map, List.get?_range hi]
    simp only [Option.map_some']
    rw [if_pos ⟨h1, h2⟩]
  · intro i h1
    have hi : i < ys.length := by omega
    rw [hmap, List.get?_map, List.get?_range hi]
    simp only [Option.map_some']
    rw [if_neg (by omega)]
  · intro i h1 h2
    rw [hmap, List.get?_map, List.get?_range h1]
    simp only [Option.map_some']
    rw [if_neg (by omega)]
  · rw [hmap, List.countP_map]
    have hcong : (List.range ys.length).countP
        ((fun o : Option ℚ => o.isNone) ∘
          (fun i => if w / 2 ≤ i ∧ i + w / 2 + 1 ≤ ys.length
                    then some ((((ys.drop (i - w / 2)).take w).sum) / (w : ℚ)) else none)) =
        (List.range ys.length).countP
          (fun i => decide (i < w / 2 ∨ ys.length ≤ i + w / 2)) := by
      apply List.countP_congr
      intro x hx
      by_cases hc : w / 2 ≤ x ∧ x + w / 2 + 1 ≤ ys.length
      · simp only [Function.comp, if_pos hc, Option.isNone_some]
        constructor
        · intro hfalse
          exact absurd hfalse (by simp)
        · intro habs
          rw [decide_eq_true_eq] at habs
          omega
      · simp only [Function.comp, if_neg hc]
        constructor
        · intro _
          rw [decide_eq_true_eq]
          omega
        · intro _
          rfl
    rw [hcong, countP_range_boundary ys.length (w / 2) (by omega)]
    omega

theorem c5_reduce_noise_witness :
    (3 % 2 = 1 ∧ 3 ≤ ([(1 : ℚ), 2, 3]).length) ∧
    ((reduce_noise 3 [(1 : ℚ), 2, 3]).length = ([(1 : ℚ), 2, 3]).length ∧
     (∀ i, 3 / 2 ≤ i → i + 3 / 2 + 1 ≤ ([(1 : ℚ), 2, 3]).length →
       (reduce_noise 3 [(1 : ℚ), 2, 3]).get? i =
         some (some ((((([(1 : ℚ), 2, 3]).drop (i - 3 / 2)).take 3).sum) / ((3 : ℕ) : ℚ)))) ∧
     (∀ i, i < 3 / 2 → (reduce_noise 3 [(1 : ℚ), 2, 3]).get? i = some none) ∧
     (∀ i, i < ([(1 : ℚ), 2, 3]).length → ([(1 : ℚ), 2, 3]).length ≤ i + 3 / 2 →
       (reduce_noise 3 [(1 : ℚ), 2, 3]).get? i = some none) ∧
     (reduce_noise 3 [(1 : ℚ), 2, 3]).countP (fun o => o.isNone) = 3 - 1) :=
  ⟨⟨by decide, by decide⟩, c5_reduce_noise 3 [(1 : ℚ), 2, 3] (by decide) (by decide)⟩

/-- C10: for every non-empty series and every trend window w ≥ 1,
`estimate_trend` returns a same-length series with no missing positions
(partial neighborhoods are averaged because min_periods=1); the default
window size is floor(n/10), which is a positive window exactly when the
series has at least 10 samples. -/
theorem c10_estimate_trend (w : ℕ) (ys : List ℚ) (hw : 1 ≤ w) (hys : ys ≠ []) :
    (estimate_trend w ys).length = ys.length ∧
    (∀ i, i < ys.length → ∃ v : ℚ, (estimate_trend w ys).get? i = some (some v)) ∧
    (∀ n : ℕ, 1 ≤ default_trend_window n ↔ 10 ≤ n) := by
  refine ⟨?_, ?_, ?_⟩
  · rw [estimate_trend, rolling_center_mean_length, List.length_map]
  · intro i hi
    have hms : (ys.map some).length = ys.length := by simp
    have h := rolling_center_mean_get w 1 (ys.map some) i (by rw [hms]; exact hi)
    rw [estimate_trend, h]
    have hfm : ∀ lo c : ℕ,
        (((ys.map some).drop lo).take c).filterMap id = (ys.drop lo).take c := by
      intro lo c
      rw [← List.map_drop, ← List.map_take, filterMap_id_map_some]
    rw [hms, hfm]
    rw [if_pos]
    · exact ⟨_, rfl⟩
    · rw [List.length_take, List.length_drop]
      omega
  · intro n
    unfold default_trend_window
    omega

theorem c10_estimate_trend_witness :
    (1 ≤ 1 ∧ [(1 : ℚ), 2] ≠ []) ∧
    ((estimate_trend 1 [(1 : ℚ), 2]).length = ([(1 : ℚ), 2]).length ∧
     (∀ i, i < ([(1 : ℚ), 2]).length →
       ∃ v : ℚ, (estimate_trend 1 [(1 : ℚ), 2]).get? i = some (some v)) ∧
     (∀ n : ℕ, 1 ≤ default_trend_window n ↔ 10 ≤ n)) :=
  ⟨⟨by decide, by decide⟩, c10_estimate_trend 1 [(1 : ℚ), 2] (by decide) (by decide)⟩

/-- The minimum of a series, `np.min`: 0 is sklearn-irrelevant junk on []. -/
def listMin : List ℚ → ℚ
  | [] => 0
  | x :: r => r.foldl min x

/-- The maximum of a series, `np.max`. -/
def listMax : List ℚ → ℚ
  | [] => 0
  | x :: r => r.foldl max x

lemma foldl_min_le_init (l : List ℚ) (a : ℚ) : l.foldl min a ≤ a := by
  induction l generalizing a with
  | nil => exact le_refl a
  | cons x t ih => exact le_trans (ih (min a x)) (min_le_left a x)

lemma foldl_min_le_mem (l : List ℚ) (a x : ℚ) (hx : x ∈ l) : l.foldl min a ≤ x := by
  induction l generalizing a with
  | nil => cases hx
  | cons y t ih =>
    rcases List.mem_cons.mp hx with h | h
    · subst h
      exact le_trans (foldl_min_le_init t (min a x)) (min_le_right a x)
    · exact ih (min a y) h

lemma le_foldl_max_init (l : List ℚ) (a : ℚ) : a ≤ l.foldl max a := by
  induction l generalizing a with
  | nil => exact le_refl a
  | cons x t ih => exact le_trans (le_max_left a x) (ih (max a x))

lemma le_foldl_max_mem (l : List ℚ) (a x : ℚ) (hx : x ∈ l) : x ≤ l.foldl max a := by
  induction l generalizing a with
  | nil => cases hx
  | cons y t ih =>
    rcases List.mem_cons.mp hx with h | h
    · subst h
      exact le_trans (le_max_right a x) (le_foldl_max_init t (max a x))
    · exact ih (max a y) h

lemma listMin_le_mem (xs : List ℚ) (x : ℚ) (hx : x ∈ xs) : listMin xs ≤ x := by
  cases xs with
  | nil => cases hx
  | cons a r =>
    rcases List.mem_cons.mp hx with h | h
    · subst h
      exact foldl_min_le_init r x
    · exact foldl_min_le_mem r a x h

lemma le_listMax_mem (xs : List ℚ) (x : ℚ) (hx : x ∈ xs) : x ≤ listMax xs := by
  cases xs with
  | nil => cases hx
  | cons a r =>
    rcases List.mem_cons.mp hx with h | h
    · subst h
      exact le_foldl_max_init r x
    · exact le_foldl_max_mem r a x h

/-- The fitted state of the scikit-learn `MinMaxScaler(feature_range=(0, 1))`
stored on the preprocessor: `data_min_`, `data_max_`, `scale_`, `min_`. -/
structure ScalerState where
  dataMin : ℚ
  dataMax : ℚ
  scale : ℚ
  minOffset : ℚ
  deriving DecidableEq, Repr

/-- Embedding of `MinMaxScaler.fit` for feature_range (0, 1):
`scale_ = 1 / handle_zeros(data_max_ - data_min_)` (a zero data range is
replaced by 1 before dividing) and `min_ = 0 - data_min_ * scale_`.
Fitting an empty array raises, hence the `Option`. -/
def fitScaler : List ℚ → Option ScalerState
  | [] => none
  | x :: r =>
    some { dataMin := r.foldl min x
           dataMax := r.foldl max x
           scale := 1 / (if r.foldl max x - r.foldl min x = 0 then 1
                         else r.foldl max x - r.foldl min x)
           minOffset := 0 - (r.foldl min x) *
             (1 / (if r.foldl max x - r.foldl min x = 0 then 1
                   else r.foldl max x - r.foldl min x)) }

/-- Embedding of `MinMaxScaler.transform` on one value: `X * scale_ + min_`. -/
def scalerTransform (s : ScalerState) (x : ℚ) : ℚ := x * s.scale + s.minOffset

/-- Embedding of `SignalPreprocessor.normalize_signal`:
`self.scaler.fit_transform(data.values.reshape(-1, 1))`.  `st` is the state of
the single scaler instance held by the preprocessor before the call;
`fit_transform` refits that instance from the window, so neither the output
series nor the new state depends on `st`. -/
def normalize_signal (st : Option ScalerState) (xs : List ℚ) :
    Except PreprocessError (List ℚ × ScalerState) :=
  match fitScaler xs with
  | none => Except.error PreprocessError.emptyInput
  | some s2 => Except.ok (xs.map (scalerTransform s2), s2)

/-- Sequential normalization of a list of windows, threading the preprocessor's
scaler instance (its mutable fitted state) through the calls in order. -/
def process_windows : Option ScalerState → List (List ℚ) → List (Except PreprocessError (List ℚ))
  | _, [] => []
  | st, wdw :: rest =>
    match normalize_signal st wdw with
    | Except.error e => Except.error e :: process_windows st rest
    | Except.ok (out, st2) => Except.ok out :: process_windows (some st2) rest

lemma normalize_signal_cons (st : Option ScalerState) (a : ℚ) (r : List ℚ) :
    normalize_signal st (a :: r) =
      Except.ok ((a :: r).map (fun x => x *
          (1 / (if listMax (a :: r) - listMin (a :: r) = 0 then 1
                else listMax (a :: r) - listMin (a :: r))) +
          (0 - listMin (a :: r) *
            (1 / (if listMax (a :: r) - listMin (a :: r) = 0 then 1
                  else listMax (a :: r) - listMin (a :: r))))),
        { dataMin := listMin (a :: r), dataMax := listMax (a :: r),
          scale := 1 / (if listMax (a :: r) - listMin (a :: r) = 0 then 1
                        else listMax (a :: r) - listMin (a :: r)),
          minOffset := 0 - listMin (a :: r) *
            (1 / (if listMax (a :: r) - listMin (a :: r) = 0 then 1
                  else listMax (a :: r) - listMin (a :: r))) }) := rfl

/-- C2 (amended): normalization computes (x - min) / (max - min) from the
window's own min and max, and its outputs lie in [0, 1] when max > min; a
constant window yields all-zero output, returned through the ordinary success
path (no DegenerateWindow flag exists in the code). -/
theorem c2_normalization (xs : List ℚ) (st : Option ScalerState) (hne : xs ≠ []) :
    (listMin xs < listMax xs →
      ∃ s2 : ScalerState,
        normalize_signal st xs =
          Except.ok (xs.map (fun x => (x - listMin xs) / (listMax xs - listMin xs)), s2) ∧
        ∀ y ∈ xs.map (fun x => (x - listMin xs) / (listMax xs - listMin xs)),
          0 ≤ y ∧ y ≤ 1) ∧
    (listMin xs = listMax xs →
      ∃ s2 : ScalerState,
        normalize_signal st xs = Except.ok (xs.map (fun _ => (0 : ℚ)), s2)) := by
  cases xs with
  | nil => exact absurd rfl hne
  | cons a r =>
    constructor
    · intro hlt
      have hd0 : listMax (a :: r) - listMin (a :: r) ≠ 0 :=
        sub_ne_zero.mpr (ne_of_gt hlt)
      have hdpos : 0 < listMax (a :: r) - listMin (a :: r) := sub_pos.mpr hlt
      refine ⟨{ dataMin := listMin (a :: r), dataMax := listMax (a :: r),
                scale := 1 / (listMax (a :: r) - listMin (a :: r)),
                minOffset := 0 - listMin (a :: r) *
                  (1 / (listMax (a :: r) - listMin (a :: r))) }, ?_, ?_⟩
      · rw [normalize_signal_cons st a r, if_neg hd0]
        have hfun : (fun x => x * (1 / (listMax (a :: r) - listMin (a :: r))) +
            (0 - listMin (a :: r) * (1 / (listMax (a :: r) - listMin (a :: r))))) =
            (fun x => (x - listMin (a :: r)) / (listMax (a :: r) - listMin (a :: r))) := by
          funext x
          field_simp
          ring
        rw [hfun]
      · intro y hy
        obtain ⟨x, hxmem, rfl⟩ := List.mem_map.mp hy
        constructor
        · exact div_nonneg (sub_nonneg.mpr (listMin_le_mem (a :: r) x hxmem)) (le_of_lt hdpos)
        · rw [div_le_one hdpos]
          have := le_listMax_mem (a :: r) x hxmem
          linarith
    · intro heq
      have hd0 : listMax (a :: r) - listMin (a :: r) = 0 := by
        rw [heq, sub_self]
      refine ⟨{ dataMin := listMin (a :: r), dataMax := listMax (a :: r),
                scale := 1 / (1 : ℚ),
                minOffset := 0 - listMin (a :: r) * (1 / (1 : ℚ)) }, ?_⟩
      rw [normalize_signal_cons st a r, if_pos hd0]
      have hmap : (a :: r).map (fun x => x * (1 / (1 : ℚ)) + (0 - listMin (a :: r) * (1 / 1))) =
          (a :: r).map (fun _ => (0 : ℚ)) := by
        apply List.map_congr_left
        intro x hxmem
        have h1 : listMin (a :: r) ≤ x := listMin_le_mem (a :: r) x hxmem
        have h2 : x ≤ listMax (a :: r) := le_listMax_mem (a :: r) x hxmem
        have hx : x = listMin (a :: r) := by
          rw [heq] at h1
          linarith
        rw [hx]
        ring
      rw [hmap]

theorem c2_normalization_witness :
    ([(1 : ℚ), 3] ≠ []) ∧
    ((listMin [(1 : ℚ), 3] < listMax [(1 : ℚ), 3] →
      ∃ s2 : ScalerState,
        normalize_signal none [(1 : ℚ), 3] =
          Except.ok (([(1 : ℚ), 3]).map
            (fun x => (x - listMin [(1 : ℚ), 3]) / (listMax [(1 : ℚ), 3] - listMin [(1 : ℚ), 3])), s2) ∧
        ∀ y ∈ ([(1 : ℚ), 3]).map
            (fun x => (x - listMin [(1 : ℚ), 3]) / (listMax [(1 : ℚ), 3] - listMin [(1 : ℚ), 3])),
          0 ≤ y ∧ y ≤ 1) ∧
     (listMin [(1 : ℚ), 3] = listMax [(1 : ℚ), 3] →
      ∃ s2 : ScalerState,
        normalize_signal none [(1 : ℚ), 3] =
          Except.ok (([(1 : ℚ), 3]).map (fun _ => (0 : ℚ)), s2))) :=
  ⟨by decide, c2_normalization [(1 : ℚ), 3] none (by decide)⟩

/-- C2 counterexample: on the constant window [5, 5, 5] the code returns the
all-zero series through the ordinary success path — no error and no
DegenerateWindow flag is raised, refuting the claim that the degenerate
condition is observably flagged rather than silently produced. -/
theorem c2_counterexample :
    normalize_signal none [(5 : ℚ), 5, 5] =
      Except.ok ([(0 : ℚ), 0, 0],
        { dataMin := 5, dataMax := 5, scale := 1, minOffset := -5 }) := by
  have hf : fitScaler [(5 : ℚ), 5, 5] = some ⟨5, 5, 1, -5⟩ := by
    norm_num [fitScaler, List.foldl]
  unfold normalize_signal
  rw [hf]
  norm_num [scalerTransform]

lemma process_windows_eq_map (st : Option ScalerState) (ws : List (List ℚ)) :
    process_windows st ws =
      ws.map (fun wdw => Except.map Prod.fst (normalize_signal none wdw)) := by
  induction ws generalizing st with
  | nil => rfl
  | cons wdw rest ih =>
    have h2 : normalize_signal none wdw = normalize_signal st wdw := rfl
    cases hn : normalize_signal st wdw with
    | error e =>
        simp only [process_windows, hn, List.map_cons, h2, ih, Except.map]
    | ok p =>
        obtain ⟨out, st2⟩ := p
        simp only [process_windows, hn, List.map_cons, h2, ih, Except.map]

/-- C9: sequentially normalizing a list of windows is insensitive to the
scaler state carried on the preprocessor — every window's result is the pure
per-window normalization, so results do not depend on which windows were
normalized before, and re-running the pipeline on identical input yields an
identical result. -/
theorem c9_normalize_state_independent (st1 st2 : Option ScalerState)
    (ws : List (List ℚ)) :
    process_windows st1 ws =
      ws.map (fun wdw => Except.map Prod.fst (normalize_signal none wdw)) ∧
    process_windows st1 ws = process_windows st2 ws :=
  ⟨process_windows_eq_map st1 ws,
   (process_windows_eq_map st1 ws).trans (process_windows_eq_map st2 ws).symm⟩

/-- Embedding of `Series.diff()`: position 0 becomes missing; position i holds
x[i] - x[i-1] when both operands are present. -/
def diffSeries (xs : List (Option ℚ)) : List (Option ℚ) :=
  match xs with
  | [] => []
  | _ :: t => none :: List.zipWith (fun c p =>
      match c, p with
      | some cv, some pv => some (cv - pv)
      | _, _ => none) t xs

/-- Embedding of `Series.bfill()`: each missing position takes the next non-missing value
after it; trailing missing positions stay missing. -/
def bfillSeries : List (Option ℚ) → List (Option ℚ)
  | [] => []
  | x :: rest =>
    let r := bfillSeries rest
    (match x with
     | some v => some v
     | none =>
       match r with
       | [] => none
       | y :: _ => y) :: r

/-- Embedding of `SignalPreprocessor.detrend_signal`: `data.diff().bfill()`. -/
def detrend_signal (xs : List ℚ) : List (Option ℚ) :=
  bfillSeries (diffSeries (xs.map some))

lemma detrend_signal_cons (a b : ℚ) (t : List ℚ) :
    detrend_signal (a :: b :: t) =
      some (b - a) ::
        (List.zipWith (fun c p => c - p) (b :: t) (a :: b :: t)).map some := by
  unfold detrend_signal
  have hdiff : diffSeries ((a :: b :: t).map some) =
      none :: (List.zipWith (fun c p => c - p) (b :: t) (a :: b :: t)).map some := by
    simp only [List.map_cons, diffSeries]
    congr 1
    rw [← List.map_cons some b t, ← List.map_cons some a (b :: t), List.zipWith_map,
      List.map_zipWith]
  rw [hdiff]
  have hall : ∀ l : List ℚ, bfillSeries (l.map some) = l.map some := by
    intro l
    induction l with
    | nil => rfl
    | cons v rest ih => simp [bfillSeries, ih]
  show bfillSeries (none :: ((b - a) :: List.zipWith (fun c p => c - p) t (b :: t)).map some) = _
  rw [bfillSeries]
  rw [hall]
  rfl

lemma get?_eq_some_getD (l : List ℚ) (j : ℕ) (hj : j < l.length) :
    l.get? j = some (l.getD j 0) := by
  have hx := List.get?_eq_get hj
  rw [hx, List.getD_eq_get?, hx]
  rfl

/-- C6: for every series of length at least 2, differencing with back-fill
preserves length, fills position 0 with the first valid difference (so the
first two outputs both equal x[1] - x[0]), and every later position i holds
x[i] - x[i-1]. -/
theorem c6_detrend (xs : List ℚ) (h2 : 2 ≤ xs.length) :
    (detrend_signal xs).length = xs.length ∧
    (detrend_signal xs).get? 0 = some (some (xs.getD 1 0 - xs.getD 0 0)) ∧
    (detrend_signal xs).get? 0 = (detrend_signal xs).get? 1 ∧
    (∀ i, 1 ≤ i → i < xs.length →
      (detrend_signal xs).get? i = some (some (xs.getD i 0 - xs.getD (i - 1) 0))) := by
  match xs with
  | [] => simp at h2
  | [a] => simp at h2
  | a :: b :: t =>
    rw [detrend_signal_cons]
    refine ⟨?_, ?_, ?_, ?_⟩
    · simp [List.length_zipWith]
    · rfl
    · rfl
    · intro i h1 hi
      obtain ⟨j, rfl⟩ : ∃ j, i = j + 1 := ⟨i - 1, by omega⟩
      simp only [List.length_cons] at hi
      rw [List.get?_cons_succ, List.get?_map, List.get?_zipWith]
      have hc : (b :: t).get? j = some ((a :: b :: t).getD (j + 1) 0) := by
        rw [get?_eq_some_getD (b :: t) j (by simp; omega)]
        rw [List.getD_cons_succ]
      have hp : (a :: b :: t).get? j = some ((a :: b :: t).getD j 0) :=
        get?_eq_some_getD (a :: b :: t) j (by simp; omega)
      rw [hc, hp]
      rfl

theorem c6_detrend_witness :
    2 ≤ ([(4 : ℚ), 7, 9]).length ∧
    ((detrend_signal [(4 : ℚ), 7, 9]).length = ([(4 : ℚ), 7, 9]).length ∧
     (detrend_signal [(4 : ℚ), 7, 9]).get? 0 =
       some (some (([(4 : ℚ), 7, 9]).getD 1 0 - ([(4 : ℚ), 7, 9]).getD 0 0)) ∧
     (detrend_signal [(4 : ℚ), 7, 9]).get? 0 = (detrend_signal [(4 : ℚ), 7, 9]).get? 1 ∧
     (∀ i, 1 ≤ i → i < ([(4 : ℚ), 7, 9]).length →
       (detrend_signal [(4 : ℚ), 7, 9]).get? i =
         some (some (([(4 : ℚ), 7, 9]).getD i 0 - ([(4 : ℚ), 7, 9]).getD (i - 1) 0)))) :=
  ⟨by decide, c6_detrend [(4 : ℚ), 7, 9] (by decide)⟩

/-- Trend channel of the modelled decomposition: a centered moving average of
window `period` with partial neighborhoods allowed, so every position is
defined. -/
def decompose_trend (period : ℕ) (xs : List ℚ) : List ℚ :=
  (rolling_center_mean period 1 (xs.map some)).map (fun o => o.getD 0)

/-- Mean of residue class r (indices congruent to r mod period) of the
detrended series: the seasonal profile value for that phase. -/
def seasonal_mean (detr : List ℚ) (period r : ℕ) : ℚ :=
  let vals := (List.range detr.length).filterMap
    (fun j => if j % period = r then detr.get? j else none)
  vals.sum / (vals.length : ℚ)

/-- Modelled from the spec: the repository imports statsmodels' STL
(`from statsmodels.tsa.seasonal import STL`, signal_preprocessor.py line 3)
but contains no decomposition code of its own.  This follows §4.4
`decompose(series, period)`: an additive split
series = trend + seasonal + residual, with the trend a centered moving
average, the seasonal component the period-wise mean of the detrended
series, the residual the remainder, and failure with InsufficientData for a
series shorter than 2 * period. -/
def decompose (period : ℕ) (xs : List ℚ) :
    Except PreprocessError (List ℚ × List ℚ × List ℚ) :=
  if xs.length < 2 * period then Except.error PreprocessError.insufficientData
  else
    Except.ok (decompose_trend period xs,
      (List.range xs.length).map (fun i =>
        seasonal_mean (List.zipWith (fun x t => x - t) xs (decompose_trend period xs))
          period (i % period)),
      List.zipWith (fun d s => d - s)
        (List.zipWith (fun x t => x - t) xs (decompose_trend period xs))
        ((List.range xs.length).map (fun i =>
          seasonal_mean (List.zipWith (fun x t => x - t) xs (decompose_trend period xs))
            period (i % period))))

lemma zipWith_sub_getD (l1 l2 : List ℚ) (i : ℕ) (h1 : i < l1.length) (h2 : i < l2.length) :
    (List.zipWith (fun x y => x - y) l1 l2).getD i 0 = l1.getD i 0 - l2.getD i 0 := by
  induction i generalizing l1 l2 with
  | zero =>
    cases l1 with
    | nil => simp at h1
    | cons x t1 =>
      cases l2 with
      | nil => simp at h2
      | cons y t2 => rfl
  | succ j ih =>
    cases l1 with
    | nil => simp at h1
    | cons x t1 =>
      cases l2 with
      | nil => simp at h2
      | cons y t2 =>
        simp only [List.zipWith_cons_cons, List.getD_cons_succ]
        exact ih t1 t2 (by simp at h1; omega) (by simp at h2; omega)

lemma decompose_trend_length (period : ℕ) (xs : List ℚ) :
    (decompose_trend period xs).length = xs.length := by
  rw [decompose_trend, List.length_map, rolling_center_mean_length, List.length_map]

/-- C4: the decomposition operation (modelled from the spec; STL is imported
but unused in the source) returns, for every series of length at least
2 * period, three same-length channels with trend + seasonal + residual equal
to the series at every position (exactly, hence within any tolerance), and
fails with InsufficientData for every shorter series. -/
theorem c4_decompose (period : ℕ) (xs : List ℚ) (hp : 1 ≤ period) :
    (2 * period ≤ xs.length →
      ∃ t s r, decompose period xs = Except.ok (t, s, r) ∧
        t.length = xs.length ∧ s.length = xs.length ∧ r.length = xs.length ∧
        ∀ i, i < xs.length → t.getD i 0 + s.getD i 0 + r.getD i 0 = xs.getD i 0) ∧
    (xs.length < 2 * period →
      decompose period xs = Except.error PreprocessError.insufficientData) := by
  constructor
  · intro hge
    rw [decompose, if_neg (by omega)]
    refine ⟨_, _, _, rfl, decompose_trend_length period xs, by simp, ?_, ?_⟩
    · rw [List.length_zipWith, List.length_zipWith, List.length_map,
        List.length_range, decompose_trend_length]
      omega
    · intro i hi
      have hlt : i < (decompose_trend period xs).length := by
        rw [decompose_trend_length]
        exact hi
      have hld : i < (List.zipWith (fun x t => x - t) xs (decompose_trend period xs)).length := by
        rw [List.length_zipWith, decompose_trend_length]
        omega
      have hls : i < ((List.range xs.length).map (fun i =>
          seasonal_mean (List.zipWith (fun x t => x - t) xs (decompose_trend period xs))
            period (i % period))).length := by
        rw [List.length_map, List.length_range]
        exact hi
      rw [zipWith_sub_getD _ _ i hld hls, zipWith_sub_getD _ _ i hi hlt]
      ring
  · intro hlt
    rw [decompose, if_pos (by omega)]

theorem c4_decompose_witness :
    1 ≤ 1 ∧
    ((2 * 1 ≤ ([(1 : ℚ), 2]).length →
      ∃ t s r, decompose 1 [(1 : ℚ), 2] = Except.ok (t, s, r) ∧
        t.length = ([(1 : ℚ), 2]).length ∧ s.length = ([(1 : ℚ), 2]).length ∧
        r.length = ([(1 : ℚ), 2]).length ∧
        ∀ i, i < ([(1 : ℚ), 2]).length →
          t.getD i 0 + s.getD i 0 + r.getD i 0 = ([(1 : ℚ), 2]).getD i 0) ∧
     (([(1 : ℚ), 2]).length < 2 * 1 →
      decompose 1 [(1 : ℚ), 2] = Except.error PreprocessError.insufficientData)) :=
  ⟨by decide, c4_decompose 1 [(1 : ℚ), 2] (by decide)⟩

/-- A pandas float cell: an ordinary value, NaN, or an infinity. -/
inductive PyFloat where
  | nan
  | posInf
  | negInf
  | val (q : ℚ)
  deriving DecidableEq, Repr

def isNan : PyFloat → Bool
  | PyFloat.nan => true
  | _ => false

/-- Embedding of `Series.dropna()`. -/
def dropNan (xs : List PyFloat) : List PyFloat := xs.filter (fun v => !(isNan v))

/-- Embedding of `replace([np.inf, -np.inf], np.nan)` on one cell. -/
def replaceInfWithNan : PyFloat → PyFloat
  | PyFloat.posInf => PyFloat.nan
  | PyFloat.negInf => PyFloat.nan
  | w => w

/-- The finite samples of a series, in order. -/
def finiteVals (xs : List PyFloat) : List ℚ :=
  xs.filterMap (fun v => match v with
    | PyFloat.val q => some q
    | _ => none)

/-- Modelled from the spec: statsmodels' `adfuller` is external to the
repository; per §4.5 the unit-root test fails with InsufficientData when
fewer than 3 samples are supplied, and otherwise yields a test statistic and
p-value, whose numeric values the design does not constrain (represented
here by the pair (0, 0)). -/
def adfuller (xs : List ℚ) : Except PreprocessError (ℚ × ℚ) :=
  if xs.length < 3 then Except.error PreprocessError.insufficientData
  else Except.ok (0, 0)

/-- Embedding of `FeatureExtractor.extract_time_features`: `dropna()`; raise if empty;
replace ±inf with NaN and drop again; raise if empty; run `adfuller` on the
cleaned series.  Both explicit raises fire exactly on empty cleaned data. -/
def extract_time_features (xs : List PyFloat) : Except PreprocessError (ℚ × ℚ) :=
  if dropNan xs = [] then Except.error PreprocessError.insufficientData
  else if dropNan ((dropNan xs).map replaceInfWithNan) = [] then
    Except.error PreprocessError.insufficientData
  else adfuller (finiteVals (dropNan ((dropNan xs).map replaceInfWithNan)))

lemma cleaned2_eq (xs : List PyFloat) :
    dropNan ((dropNan xs).map replaceInfWithNan) = (finiteVals xs).map PyFloat.val := by
  induction xs with
  | nil => rfl
  | cons v t ih =>
    cases v <;>
      simp [dropNan, isNan, replaceInfWithNan, finiteVals, List.filterMap_cons] at ih ⊢ <;>
      exact ih

lemma finiteVals_map_val (l : List ℚ) : finiteVals (l.map PyFloat.val) = l := by
  induction l with
  | nil => rfl
  | cons q t ih => simp [finiteVals, List.filterMap_cons] at ih ⊢; exact ih

lemma adfuller_error_iff (l : List ℚ) :
    adfuller l = Except.error PreprocessError.insufficientData ↔ l.length < 3 := by
  unfold adfuller
  by_cases h : l.length < 3
  · simp [h]
  · simp [h]

/-- C8: the stationarity features are computed on the series after missing
and non-finite values have been removed, and the operation fails with
InsufficientData (the empty-data raises of the source, plus the minimum
3-sample requirement of the spec-modelled unit-root test) exactly when fewer
than 3 finite samples remain after cleaning. -/
theorem c8_time_features (xs : List PyFloat) :
    (extract_time_features xs = Except.error PreprocessError.insufficientData ↔
      (finiteVals xs).length < 3) ∧
    (3 ≤ (finiteVals xs).length →
      extract_time_features xs = adfuller (finiteVals xs)) := by
  have hc2 := cleaned2_eq xs
  by_cases h1 : dropNan xs = []
  · have hfin : finiteVals xs = [] := by
      have : dropNan ((dropNan xs).map replaceInfWithNan) = [] := by
        rw [h1]
        rfl
      rw [hc2] at this
      exact List.map_eq_nil.mp this
    rw [extract_time_features, if_pos h1, hfin]
    constructor
    · simp
    · intro h3
      simp at h3
  · by_cases h2 : dropNan ((dropNan xs).map replaceInfWithNan) = []
    · have hfin : finiteVals xs = [] := by
        rw [hc2] at h2
        exact List.map_eq_nil.mp h2
      rw [extract_time_features, if_neg h1, if_pos h2, hfin]
      constructor
      · simp
      · intro h3
        simp at h3
    · rw [extract_time_features, if_neg h1, if_neg h2, hc2, finiteVals_map_val]
      exact ⟨adfuller_error_iff (finiteVals xs), fun _ => rfl⟩

theorem c8_time_features_witness :
    ((extract_time_features
        [PyFloat.val 1, PyFloat.nan, PyFloat.val 2, PyFloat.posInf, PyFloat.val 3] =
          Except.error PreprocessError.insufficientData ↔
      (finiteVals
        [PyFloat.val 1, PyFloat.nan, PyFloat.val 2, PyFloat.posInf, PyFloat.val 3]).length < 3) ∧
     (3 ≤ (finiteVals
        [PyFloat.val 1, PyFloat.nan, PyFloat.val 2, PyFloat.posInf, PyFloat.val 3]).length →
      extract_time_features
        [PyFloat.val 1, PyFloat.nan, PyFloat.val 2, PyFloat.posInf, PyFloat.val 3] =
        adfuller (finiteVals
          [PyFloat.val 1, PyFloat.nan, PyFloat.val 2, PyFloat.posInf, PyFloat.val 3]))) :=
  c8_time_features [PyFloat.val 1, PyFloat.nan, PyFloat.val 2, PyFloat.posInf, PyFloat.val 3]

/-- A pandas DataFrame: named columns over rows of rational cells. -/
structure DataFrame where
  columns : List String
  rows : List (List ℚ)
  deriving DecidableEq, Repr

def dataColumn : String := "data"

def measurementColumn : String := "measurement"

def insertSortedQ (q : ℚ) : List ℚ → List ℚ
  | [] => [q]
  | x :: t => if q ≤ x then q :: x :: t else x :: insertSortedQ q t

/-- Ascending sort of group keys (pandas `groupby` sorts keys). -/
def sortQ (l : List ℚ) : List ℚ := l.foldr insertSortedQ []

def dedupRowsAux : List (List ℚ) → List (List ℚ) → List (List ℚ)
  | _, [] => []
  | seen, r :: t =>
    if seen.contains r then dedupRowsAux seen t else r :: dedupRowsAux (r :: seen) t

/-- Embedding of `DataFrame.drop_duplicates()`: keep the first occurrence of each row. -/
def dedupRows (l : List (List ℚ)) : List (List ℚ) := dedupRowsAux [] l

/-- Embedding of `SignalPreprocessor.remove_measurement_duplicates`:
`data.groupby('measurement').apply(lambda x: x.drop_duplicates()).reset_index(drop=True)`
— rows are regrouped by their measurement key (keys ascending, original order
within each group), duplicates dropped within each group. -/
def remove_measurement_duplicates (df : DataFrame) : DataFrame :=
  { columns := df.columns
    rows :=
      ((sortQ ((df.rows.map
          (fun r => r.getD (df.columns.indexOf measurementColumn) 0)).dedup)).map
        (fun k => dedupRows (df.rows.filter
          (fun r => r.getD (df.columns.indexOf measurementColumn) 0 == k)))).flatten }

/-- Embedding of `normalize_signal` on a series with missing values: `MinMaxScaler` fits
on the present values (nanmin/nanmax) and missing values propagate through
the transform; an all-missing series stays all-missing. -/
def normalize_signal_opt (xs : List (Option ℚ)) : List (Option ℚ) :=
  match fitScaler (xs.filterMap id) with
  | none => xs.map (fun _ => none)
  | some s => xs.map (Option.map (scalerTransform s))

/-- The output frame of `preprocess`: columns data_noised_reduced,
data_normalized, data_detrended, trend. -/
structure ProcessedFrame where
  noiseReduced : List (Option ℚ)
  normalized : List (Option ℚ)
  detrended : List (Option ℚ)
  trend : List (Option ℚ)
  deriving DecidableEq, Repr

/-- The body of `preprocess` after the optional duplicate-removal pass:
check the 'data' column (raising otherwise), then noise-reduce, normalize,
detrend, and estimate the trend of the signal column. -/
def preprocessCore (wsize : ℕ) (df : DataFrame) (events : List PreprocessEvent) :
    List PreprocessEvent × Except PreprocessError ProcessedFrame :=
  if dataColumn ∈ df.columns then
    (events, Except.ok
      { noiseReduced := reduce_noise wsize
          (df.rows.map (fun r => r.getD (df.columns.indexOf dataColumn) 0))
        normalized := normalize_signal_opt (reduce_noise wsize
          (df.rows.map (fun r => r.getD (df.columns.indexOf dataColumn) 0)))
        detrended := bfillSeries (diffSeries (normalize_signal_opt (reduce_noise wsize
          (df.rows.map (fun r => r.getD (df.columns.indexOf dataColumn) 0)))))
        trend := rolling_center_mean wsize 1 (normalize_signal_opt (reduce_noise wsize
          (df.rows.map (fun r => r.getD (df.columns.indexOf dataColumn) 0)))) })
  else (events, Except.error PreprocessError.missingColumn)

/-- Embedding of `SignalPreprocessor.preprocess`: when a 'measurement' column is present,
first remove duplicates per measurement (an observable processing event),
then check for the 'data' column and continue. -/
def preprocess (wsize : ℕ) (df : DataFrame) :
    List PreprocessEvent × Except PreprocessError ProcessedFrame :=
  if measurementColumn ∈ df.columns then
    preprocessCore wsize (remove_measurement_duplicates df) [PreprocessEvent.removedDuplicates]
  else preprocessCore wsize df []

/-- C7 counterexample: on a table with a 'measurement' column, duplicate rows
and no 'data' column, `preprocess` performs duplicate removal (an observable
transformation of the input — the duplicate row is dropped) before failing
with MissingColumn, refuting the claim that the failure precedes any
processing step. -/
theorem c7_counterexample :
    preprocess 5 { columns := [measurementColumn], rows := [[(1 : ℚ)], [1]] } =
      ([PreprocessEvent.removedDuplicates], Except.error PreprocessError.missingColumn) ∧
    remove_measurement_duplicates
        { columns := [measurementColumn], rows := [[(1 : ℚ)], [1]] } =
      { columns := [measurementColumn], rows := [[(1 : ℚ)]] } := by
  constructor
  · rfl
  · rfl

/-- C7 (amended): for every input table lacking a 'data' column, `preprocess`
fails with MissingColumn before any of the signal transformations, but after
the duplicate-removal pass whenever a 'measurement' column is present; only
without a 'measurement' column does it fail before any processing. -/
theorem c7_preprocess_missing_column (wsize : ℕ) (df : DataFrame)
    (h : dataColumn ∉ df.columns) :
    preprocess wsize df =
      ((if measurementColumn ∈ df.columns then [PreprocessEvent.removedDuplicates] else []),
       Except.error PreprocessError.missingColumn) := by
  have hcols : (remove_measurement_duplicates df).columns = df.columns := rfl
  unfold preprocess preprocessCore
  by_cases hm : measurementColumn ∈ df.columns
  · rw [if_pos hm, if_pos hm, if_neg (by rw [hcols]; exact h)]
  · rw [if_neg hm, if_neg hm, if_neg h]

theorem c7_preprocess_missing_column_witness :
    (dataColumn ∉ (DataFrame.mk [] []).columns) ∧
    preprocess 5 (DataFrame.mk [] []) =
      ((if measurementColumn ∈ (DataFrame.mk [] []).columns
        then [PreprocessEvent.removedDuplicates] else []),
       Except.error PreprocessError.missingColumn) :=
  ⟨by decide, c7_preprocess_missing_column 5 (DataFrame.mk [] []) (by decide)⟩

/-- Embedding of `np.mean` over a list of reals. -/
noncomputable def listMeanR (xs : List ℝ) : ℝ := xs.sum / (xs.length : ℝ)

/-- Embedding of `np.std` (population standard deviation, ddof = 0). -/
noncomputable def listStdR (xs : List ℝ) : ℝ :=
  Real.sqrt (listMeanR (xs.map (fun x => (x - listMeanR xs) ^ 2)))

/-- Coefficient k of the discrete Fourier transform computed by `scipy.fftpack.fft`:
X_k = sum_j x_j * exp(-2*pi*i*j*k / n). -/
noncomputable def dftCoeff (x : List ℝ) (k : ℕ) : ℂ :=
  ∑ j in Finset.range x.length,
    ((x.getD j 0 : ℝ) : ℂ) * Complex.exp (-(2 * Real.pi * Complex.I * j * k) / x.length)

/-- The full DFT spectrum, all n coefficients. -/
noncomputable def dft (x : List ℝ) : List ℂ := (List.range x.length).map (dftCoeff x)

/-- Embedding of `np.abs(fft_spectrum)`: the magnitude spectrum. -/
noncomputable def fft_magnitude (x : List ℝ) : List ℝ := (dft x).map Complex.abs

/-- Embedding of `FeatureExtractor.extract_fft_features`: the returned dictionary —
mean and standard deviation of the magnitude spectrum of the full FFT. -/
noncomputable def extract_fft_features (x : List ℝ) : List (String × ℝ) :=
  [("fft_mean", listMeanR (fft_magnitude x)), ("fft_std", listStdR (fft_magnitude x))]

/-- The frequency-group features as the specification words them: magnitude
mean/std and phase-angle mean/std, all over the first half of the spectrum
(half-point index floor(n/2)).  Stated only for comparison with the code's
`extract_fft_features`. -/
noncomputable def extract_fft_features_spec (x : List ℝ) : List (String × ℝ) :=
  [("fft_mean", listMeanR ((fft_magnitude x).take (x.length / 2))),
   ("fft_std", listStdR ((fft_magnitude x).take (x.length / 2))),
   ("fft_phase_mean", listMeanR (((dft x).take (x.length / 2)).map Complex.arg)),
   ("fft_phase_std", listStdR (((dft x).take (x.length / 2)).map Complex.arg))]

lemma dftCoeff_pair_zero (a b : ℝ) : dftCoeff [a, b] 0 = ((a + b : ℝ) : ℂ) := by
  unfold dftCoeff
  rw [show ([a, b] : List ℝ).length = 2 from rfl]
  rw [Finset.sum_range_succ, Finset.sum_range_succ, Finset.sum_range_zero]
  push_cast
  simp [Complex.exp_zero]

lemma dftCoeff_pair_one (a b : ℝ) : dftCoeff [a, b] 1 = ((a - b : ℝ) : ℂ) := by
  unfold dftCoeff
  rw [show ([a, b] : List ℝ).length = 2 from rfl]
  rw [Finset.sum_range_succ, Finset.sum_range_succ, Finset.sum_range_zero]
  push_cast
  have harg : (-(2 * (Real.pi : ℂ) * Complex.I * 1 * 1) / 2) = -((Real.pi : ℂ) * Complex.I) := by
    ring
  rw [harg, Complex.exp_neg, Complex.exp_pi_mul_I]
  simp [Complex.exp_zero]
  ring

lemma dft_pair (a b : ℝ) : dft [a, b] = [((a + b : ℝ) : ℂ), ((a - b : ℝ) : ℂ)] := by
  unfold dft
  rw [show ([a, b] : List ℝ).length = 2 from rfl, show List.range 2 = [0, 1] from rfl]
  rw [List.map_cons, List.map_cons, List.map_nil, dftCoeff_pair_zero, dftCoeff_pair_one]

lemma fft_magnitude_31 : fft_magnitude [(3 : ℝ), 1] = [4, 2] := by
  unfold fft_magnitude
  rw [dft_pair 3 1]
  rw [List.map_cons, List.map_cons, List.map_nil, Complex.abs_ofReal, Complex.abs_ofReal]
  norm_num

lemma listSum_map_range (n : ℕ) (f : ℕ → ℝ) :
    ((List.range n).map f).sum = ∑ i in Finset.range n, f i := by
  induction n with
  | zero => simp
  | succ m ih =>
    rw [List.range_succ, List.map_append, List.sum_append, Finset.sum_range_succ, ih]
    simp

/-- C3 counterexample: the code's frequency features at the series [3, 1]
carry exactly the two magnitude keys (no phase features at all), and the
code's fft_mean is 3, the mean over the FULL magnitude spectrum [4, 2],
whereas the mean over the first half (floor(2/2) = 1 coefficient) is 4 —
so the features are not computed over the first half of the spectrum. -/
theorem c3_counterexample :
    (extract_fft_features [(3 : ℝ), 1]).map Prod.fst = ["fft_mean", "fft_std"] ∧
    (extract_fft_features_spec [(3 : ℝ), 1]).map Prod.fst =
      ["fft_mean", "fft_std", "fft_phase_mean", "fft_phase_std"] ∧
    extract_fft_features [(3 : ℝ), 1] ≠ extract_fft_features_spec [(3 : ℝ), 1] ∧
    listMeanR (fft_magnitude [(3 : ℝ), 1]) = 3 ∧
    listMeanR ((fft_magnitude [(3 : ℝ), 1]).take (([(3 : ℝ), 1]).length / 2)) = 4 ∧
    (3 : ℝ) ≠ 4 := by
  refine ⟨rfl, rfl, ?_, ?_, ?_, by norm_num⟩
  · intro h
    have hlen := congrArg List.length h
    simp [extract_fft_features, extract_fft_features_spec] at hlen
  · rw [fft_magnitude_31]
    unfold listMeanR
    norm_num
  · rw [fft_magnitude_31]
    rw [show (([(3 : ℝ), 1]).length / 2) = 1 from rfl]
    rw [show ([(4 : ℝ), 2]).take 1 = [4] from rfl]
    unfold listMeanR
    norm_num

/-- C3 (amended): for every input series the frequency-group features consist
of exactly the mean and standard deviation of the magnitude spectrum computed
over the full DFT — the mean is the sum of the magnitudes of all n
coefficients divided by n — with no phase-angle features and no restriction
to the first half of the spectrum. -/
theorem c3_fft_features (x : List ℝ) :
    extract_fft_features x =
      [("fft_mean",
        (∑ k in Finset.range x.length, Complex.abs (dftCoeff x k)) / (x.length : ℝ)),
       ("fft_std", listStdR (fft_magnitude x))] ∧
    (extract_fft_features x).map Prod.fst = ["fft_mean", "fft_std"] := by
  constructor
  · have hmean : listMeanR (fft_magnitude x) =
        (∑ k in Finset.range x.length, Complex.abs (dftCoeff x k)) / (x.length : ℝ) := by
      unfold listMeanR fft_magnitude dft
      rw [List.map_map, listSum_map_range]
      simp only [Function.comp, List.length_map, List.length_range]
    unfold extract_fft_features
    rw [hmean]
  · rfl
